import Mathlib

/-!
Verification development for the tagemup tag-aware caching library.

The JavaScript sources are shallowly embedded: JS strings are lists of
characters, the heterogeneous values held by the backends are an inductive
type of JS values restricted to the fragment the library manipulates
(undefined, null, NaN, booleans, integer numbers, strings, arrays), and each
driver operation becomes a pure function from an explicit store state to a
result paired with the successor state.  Operations that can throw return an
error value together with the state reached at the moment of the throw, so
that partially applied mutations (a JS forEach aborted by an exception) are
kept.  The serializer hook is a pair of function parameters, mirroring
Driver.serialize and Driver.deserialize falling back to the identity when no
serializer is configured.
-/

/-- JS strings, embedded as lists of characters. -/
abbrev Str := List Char

/-- The fragment of JS values the library stores and manipulates.  JS numbers
are restricted to integers plus the distinguished NaN value; this is the
fragment exercised by the cache contract (TTLs, counters, serialized strings,
tag-index arrays). -/
inductive JVal where
  | undef : JVal
  | null : JVal
  | nan : JVal
  | bool (b : Bool) : JVal
  | num (n : Int) : JVal
  | str (s : Str) : JVal
  | arr (elems : List JVal) : JVal

/-- Errors surfaced by driver operations: a TypeError raised by calling an
array method on a non-array, and the invalid-operand error thrown by
increment and decrement. -/
inductive JErr where
  | typeError : JErr
  | invalidOperand : JErr
deriving DecidableEq

/-- JS truthiness on the embedded value fragment. -/
def JVal.truthy : JVal → Bool
  | .undef => false
  | .null => false
  | .nan => false
  | .bool b => b
  | .num n => n != 0
  | .str s => !s.isEmpty
  | .arr _ => true

/-- The result of the JS typeof operator on the embedded fragment. -/
def jsTypeof : JVal → Str
  | .undef => "undefined".data
  | .null => "object".data
  | .nan => "number".data
  | .bool _ => "boolean".data
  | .num _ => "number".data
  | .str _ => "string".data
  | .arr _ => "object".data

/-- JS strict equality on the embedded fragment.  Values of different types
are never strictly equal, NaN is not strictly equal to anything (itself
included), and arrays compare by object identity, so two array expressions
denoting distinct objects are unequal. -/
def JVal.strictEq : JVal → JVal → Bool
  | .undef, .undef => true
  | .null, .null => true
  | .bool a, .bool b => a == b
  | .num a, .num b => a == b
  | .str a, .str b => a == b
  | _, _ => false

/-- JS loose equality against undefined: only undefined and null qualify. -/
def jsLooseEqUndef : JVal → Bool
  | .undef => true
  | .null => true
  | _ => false

/-- Number.isNaN: true exactly of the NaN number, with no coercion. -/
def jsNumberIsNaN : JVal → Bool
  | .nan => true
  | _ => false

/-- Whether a value is an array (Array.isArray). -/
def JVal.isArr : JVal → Bool
  | .arr _ => true
  | _ => false

/-- Decimal rendering of an integer, as JS produces for integral numbers. -/
def intStr (i : Int) : Str := (toString i).data

mutual

/-- The JS String() conversion used when a value becomes an object property
key (delete this.memory[p] coerces p to a string). -/
def jsToKeyStr : JVal → Str
  | .undef => "undefined".data
  | .null => "null".data
  | .nan => "NaN".data
  | .bool true => "true".data
  | .bool false => "false".data
  | .num n => intStr n
  | .str s => s
  | .arr l => jsArrJoin l

/-- Array.prototype.toString: elements joined by commas, null and undefined
elements rendered as empty. -/
def jsArrJoin : List JVal → Str
  | [] => []
  | v :: rest =>
    (match v with
      | .null => []
      | .undef => []
      | w => jsToKeyStr w) ++
    (match rest with
      | [] => []
      | r => ',' :: jsArrJoin r)

end

/-- JS Number() conversion of a string, restricted to the embedded integer
fragment: the empty string converts to 0, optionally signed decimal digit
strings convert to the corresponding integer, and everything else is NaN
(returned as none). -/
def digitsVal : Str → Option Nat
  | [] => none
  | s => s.foldl (fun acc c => match acc with
      | none => none
      | some n => if c.isDigit then some (n * 10 + (c.toNat - '0'.toNat)) else none)
      (some 0)

def strToInt : Str → Option Int
  | [] => some 0
  | '-' :: rest => (digitsVal rest).map (fun n => -(n : Int))
  | '+' :: rest => (digitsVal rest).map (fun n => (n : Int))
  | s => (digitsVal s).map (fun n => (n : Int))

/-- JS binary + of a value and an integer number (value += amount): numeric
addition for numbers, string concatenation for strings, the usual coercions
otherwise. -/
def jsAdd (v : JVal) (a : Int) : JVal :=
  match v with
  | .num n => .num (n + a)
  | .nan => .nan
  | .undef => .nan
  | .null => .num a
  | .bool b => .num ((if b then 1 else 0) + a)
  | .str s => .str (s ++ intStr a)
  | .arr l => .str (jsArrJoin l ++ intStr a)

/-- JS binary - of a value and an integer number (value -= amount): numeric
subtraction after Number() coercion; strings that are not integer numerals
give NaN. -/
def jsSub (v : JVal) (a : Int) : JVal :=
  match v with
  | .num n => .num (n - a)
  | .nan => .nan
  | .undef => .nan
  | .null => .num (-a)
  | .bool b => .num ((if b then 1 else 0) - a)
  | .str s => match strToInt s with
    | some n => .num (n - a)
    | none => .nan
  | .arr l => match strToInt (jsArrJoin l) with
    | some n => .num (n - a)
    | none => .nan

/-! ### SHA-1 (crypto.createHash of tagset.js), over Nat with explicit mod 2^32 -/

/-- Truncation to a 32-bit word. -/
def w32 (n : Nat) : Nat := n % 4294967296

/-- Left rotation of a 32-bit word. -/
def rotl (n x : Nat) : Nat := ((x * 2 ^ n) ||| (x / 2 ^ (32 - n))) % 4294967296

/-- UTF-8 encoding of one character (crypto hashes the utf8 bytes of the
namespace string). -/
def charUtf8 (c : Char) : List Nat :=
  let n := c.toNat
  if n < 128 then [n]
  else if n < 2048 then [192 + n / 64, 128 + n % 64]
  else if n < 65536 then [224 + n / 4096, 128 + n / 64 % 64, 128 + n % 64]
  else [240 + n / 262144, 128 + n / 4096 % 64, 128 + n / 64 % 64, 128 + n % 64]

def utf8Bytes (s : Str) : List Nat := (s.map charUtf8).flatten

/-- Big-endian 8-byte encoding of the bit length. -/
def lenBytes8 (n : Nat) : List Nat :=
  [n / 2 ^ 56 % 256, n / 2 ^ 48 % 256, n / 2 ^ 40 % 256, n / 2 ^ 32 % 256,
   n / 2 ^ 24 % 256, n / 2 ^ 16 % 256, n / 2 ^ 8 % 256, n % 256]

/-- SHA-1 padding: append 0x80, zero bytes up to 56 mod 64, then the 64-bit
message bit length. -/
def padMsg (bytes : List Nat) : List Nat :=
  bytes ++ 128 :: List.replicate ((119 - bytes.length % 64) % 64) 0 ++
    lenBytes8 (8 * bytes.length)

/-- Split a byte list into 64-byte blocks; the fuel argument (instantiated
with the list length, which strictly dominates the number of blocks) makes
the recursion structural. -/
def chunksAux : Nat → List Nat → List (List Nat)
  | _, [] => []
  | 0, _ => []
  | fuel + 1, l => l.take 64 :: chunksAux fuel (l.drop 64)

def chunks64 (l : List Nat) : List (List Nat) := chunksAux l.length l

/-- Big-endian 32-bit words from bytes. -/
def bytesToWords : List Nat → List Nat
  | b0 :: b1 :: b2 :: b3 :: rest =>
    (((b0 * 256 + b1) * 256 + b2) * 256 + b3) :: bytesToWords rest
  | _ => []

/-- One extension step of the SHA-1 message schedule, on the reversed
schedule-so-far. -/
def extendStep (rws : List Nat) : List Nat :=
  rotl 1 (rws.getD 2 0 ^^^ rws.getD 7 0 ^^^ rws.getD 13 0 ^^^ rws.getD 15 0) :: rws

/-- The 80-word message schedule of one block. -/
def schedule (ws16 : List Nat) : List Nat :=
  (extendStep^[64] ws16.reverse).reverse

/-- One SHA-1 round. -/
def sha1round (st : Nat × Nat × Nat × Nat × Nat) (iw : Nat × Nat) :
    Nat × Nat × Nat × Nat × Nat :=
  let (a, b, c, d, e) := st
  let (i, w) := iw
  let f :=
    if i < 20 then (b &&& c) ||| ((b ^^^ 4294967295) &&& d)
    else if i < 40 then b ^^^ c ^^^ d
    else if i < 60 then (b &&& c) ||| (b &&& d) ||| (c &&& d)
    else b ^^^ c ^^^ d
  let k :=
    if i < 20 then 1518500249
    else if i < 40 then 1859775393
    else if i < 60 then 2400959708
    else 3395469782
  (w32 (rotl 5 a + f + e + k + w), a, rotl 30 b, c, d)

/-- Compression of one 64-byte block. -/
def sha1block (h : Nat × Nat × Nat × Nat × Nat) (block : List Nat) :
    Nat × Nat × Nat × Nat × Nat :=
  let r := ((schedule (bytesToWords block)).enum).foldl sha1round h
  (w32 (h.1 + r.1), w32 (h.2.1 + r.2.1), w32 (h.2.2.1 + r.2.2.1),
   w32 (h.2.2.2.1 + r.2.2.2.1), w32 (h.2.2.2.2 + r.2.2.2.2))

/-- The five 32-bit state words of SHA-1 over a byte message. -/
def sha1core (msg : List Nat) : Nat × Nat × Nat × Nat × Nat :=
  (chunks64 (padMsg msg)).foldl sha1block
    (1732584193, 4023233417, 2562383102, 271733878, 3285377520)

/-- Big-endian byte encoding of a 32-bit word. -/
def wordBytes (w : Nat) : List Nat :=
  [w / 2 ^ 24 % 256, w / 2 ^ 16 % 256, w / 2 ^ 8 % 256, w % 256]

/-- The 20-byte SHA-1 digest. -/
def sha1digest (msg : List Nat) : List Nat :=
  let t := sha1core msg
  wordBytes t.1 ++ wordBytes t.2.1 ++ wordBytes t.2.2.1 ++
    wordBytes t.2.2.2.1 ++ wordBytes t.2.2.2.2

/-- The sixteen lowercase hex digit characters. -/
def hexCharList : Str := "0123456789abcdef".data

def hexDigit (n : Nat) : Char := hexCharList.getD n '0'

def byteHex (b : Nat) : List Char := [hexDigit (b / 16), hexDigit (b % 16)]

/-- Lowercase hex SHA-1 digest of a string, as digest of tagset.js
produces. -/
def sha1hex (s : Str) : Str := ((sha1digest (utf8Bytes s)).map byteHex).flatten

/-! ### TagSet (tagset.js) -/

/-- The tag index storage key for one tag name: the JS template literal
string of tagset.js. -/
def tagsKey (name : Str) : Str := "tags:".data ++ name

/-- TagSet: the ordered tag-name sequence given to the constructor. -/
structure TagSet where
  names : List Str

/-- The per-tag index keys, one per name, in order. -/
def TagSet.keys (t : TagSet) : List Str := t.names.map tagsKey

/-- The namespace string: index keys joined with a pipe. -/
def TagSet.nspace (t : TagSet) : Str := List.intercalate ['|'] t.keys

/-- The hex SHA-1 digest of the namespace. -/
def TagSet.hash (t : TagSet) : Str := sha1hex t.nspace

/-- A reference key: digest, colon, original key. -/
def TagSet.ref (t : TagSet) (key : Str) : Str := t.hash ++ ':' :: key

/-- Key resolution shared by every driver operation: with a TagSet the
reference key replaces the caller key. -/
def resolveKey (key : Str) (t : Option TagSet) : Str :=
  match t with
  | some ts => ts.ref key
  | none => key

/-! ### The backing store: a JS object as an association list -/

abbrev Store := List (Str × JVal)

namespace Store

def lookup : Store → Str → Option JVal
  | [], _ => none
  | (k', v) :: m, k => if k = k' then some v else lookup m k

/-- Property deletion; removes every binding of the key. -/
def erase : Store → Str → Store
  | [], _ => []
  | (k', v) :: m, k => if k = k' then erase m k else (k', v) :: erase m k

/-- Property assignment. -/
def insert (m : Store) (k : Str) (v : JVal) : Store := (k, v) :: m.erase k

/-- Property read: an absent property reads as undefined. -/
def lookupJ (m : Store) (k : Str) : JVal := (m.lookup k).getD .undef

end Store

/-! ### MemoryDriver (drivers/memory.js) -/

/-- One entry of the TTL roster: the object literal pushed by put. -/
structure TtlEntry where
  key : Str
  ttl : Int

/-- MemoryDriver state: the value-and-index map and the TTL roster. -/
structure Mem where
  memory : Store
  ttl : List TtlEntry

/-- A freshly constructed MemoryDriver. -/
def memInit : Mem := ⟨[], []⟩

/-- Truthiness of the numeric ttl argument (if (ttl) push). -/
def ttlTruthy : Option Int → Bool
  | none => false
  | some n => n != 0

namespace MemoryDriver

/-- One step of the sweep loop body, applied from the last roster entry
backwards: an expired entry is spliced out and its key deleted from the
value map, a live entry has its counter decremented. -/
def tickStep (e : TtlEntry) (acc : List TtlEntry × Store) : List TtlEntry × Store :=
  if e.ttl ≤ 0 then (acc.1, acc.2.erase e.key)
  else (⟨e.key, e.ttl - 1⟩ :: acc.1, acc.2)

/-- The periodic sweep. -/
def tick (st : Mem) : Mem :=
  let r := st.ttl.foldr tickStep (([] : List TtlEntry), st.memory)
  ⟨r.2, r.1⟩

def get (deser : JVal → JVal) (st : Mem) (key : Str) (t : Option TagSet) : JVal :=
  deser (st.memory.lookupJ (resolveKey key t))

def getMany (deser : JVal → JVal) (st : Mem) (keys : List Str) (t : Option TagSet) :
    List JVal :=
  (match t with
    | some ts => keys.map ts.ref
    | none => keys).map (fun k => deser (st.memory.lookupJ k))

/-- The per-index-key body of tagged put: create the index array if the slot
is falsy, then append the reference unless already present; calling indexOf
on a truthy non-array throws. -/
def putIndexKey (m : Store) (k : Str) (ref : Str) : Except JErr Store :=
  let cur := m.lookupJ k
  if cur.truthy then
    match cur with
    | .arr l =>
      if l.any (fun x => x.strictEq (.str ref)) then .ok m
      else .ok (m.insert k (.arr (l ++ [.str ref])))
    | _ => .error .typeError
  else .ok (m.insert k (.arr [.str ref]))

/-- The forEach over the tagset's index keys; a throw aborts the loop but
keeps the mutations already performed. -/
def putIndexKeys : Store → List Str → Str → Option JErr × Store
  | m, [], _ => (none, m)
  | m, k :: ks, ref =>
    match putIndexKey m k ref with
    | .ok m' => putIndexKeys m' ks ref
    | .error e => (some e, m)

def put (ser : JVal → JVal) (st : Mem) (key : Str) (v : JVal) (ttl : Option Int)
    (t : Option TagSet) : Except JErr Unit × Mem :=
  match t with
  | some ts =>
    let ref := ts.ref key
    match putIndexKeys st.memory ts.keys ref with
    | (some e, m) => (.error e, { st with memory := m })
    | (none, m) =>
      (.ok (), ⟨m.insert ref (ser v),
        if ttlTruthy ttl then st.ttl ++ [⟨ref, ttl.getD 0⟩] else st.ttl⟩)
  | none =>
    (.ok (), ⟨st.memory.insert key (ser v),
      if ttlTruthy ttl then st.ttl ++ [⟨key, ttl.getD 0⟩] else st.ttl⟩)

def putMany (ser : JVal → JVal) (st : Mem) (entries : List (Str × JVal))
    (ttl : Option Int) (t : Option TagSet) : Except JErr Unit × Mem :=
  entries.foldl
    (fun acc e =>
      let r := put ser acc.2 e.1 e.2 ttl t
      (match acc.1 with
        | .error err => .error err
        | .ok _ => r.1, r.2))
    (.ok (), st)

/-- forever passes the already serialized value back into put, which
serializes it a second time; the ttl argument is undefined. -/
def forever (ser : JVal → JVal) (st : Mem) (key : Str) (v : JVal)
    (t : Option TagSet) : Except JErr Unit × Mem :=
  put ser st key (ser v) none t

def increment (ser deser : JVal → JVal) (st : Mem) (key : Str) (amount : Int)
    (t : Option TagSet) : Except JErr JVal × Mem :=
  let k := resolveKey key t
  let value := deser (st.memory.lookupJ k)
  -- the source compares the typeof string against the undefined value
  let value := if JVal.strictEq (.str (jsTypeof value)) .undef then .num 0 else value
  if jsTypeof value = "number".data then
    let value := jsAdd value amount
    (.ok value, { st with memory := st.memory.insert k (ser value) })
  else (.error .invalidOperand, st)

def decrement (ser deser : JVal → JVal) (st : Mem) (key : Str) (amount : Int)
    (t : Option TagSet) : Except JErr JVal × Mem :=
  let k := resolveKey key t
  let value := deser (st.memory.lookupJ k)
  let value := if JVal.strictEq (.str (jsTypeof value)) .undef then .num 0 else value
  if jsTypeof value = "number".data then
    let value := jsSub value amount
    (.ok value, { st with memory := st.memory.insert k (ser value) })
  else (.error .invalidOperand, st)

/-- The per-index-key body of tagged forget: splice the reference out of the
index array when present; indexOf on a truthy non-array throws. -/
def forgetIndexKey (m : Store) (k : Str) (ref : Str) : Except JErr Store :=
  let cur := m.lookupJ k
  if cur.truthy then
    match cur with
    | .arr l =>
      if l.any (fun x => x.strictEq (.str ref)) then
        .ok (m.insert k (.arr (l.eraseP (fun x => x.strictEq (.str ref)))))
      else .ok m
    | _ => .error .typeError
  else .ok m

def forgetIndexKeys : Store → List Str → Str → Option JErr × Store
  | m, [], _ => (none, m)
  | m, k :: ks, ref =>
    match forgetIndexKey m k ref with
    | .ok m' => forgetIndexKeys m' ks ref
    | .error e => (some e, m)

/-- Removal of the first roster entry for a key (findIndex then splice). -/
def rosterRemove (l : List TtlEntry) (k : Str) : List TtlEntry :=
  l.eraseP (fun e => e.key == k)

def forget (st : Mem) (key : Str) (t : Option TagSet) : Except JErr Unit × Mem :=
  match t with
  | some ts =>
    let ref := ts.ref key
    match forgetIndexKeys st.memory ts.keys ref with
    | (some e, m) => (.error e, { st with memory := m })
    | (none, m) => (.ok (), ⟨m.erase ref, rosterRemove st.ttl ref⟩)
  | none => (.ok (), ⟨st.memory.erase key, rosterRemove st.ttl key⟩)

/-- The per-index-key body of tagged flush: delete every referenced value,
then the index key itself; forEach on a truthy non-array throws. -/
def flushIndexKey (m : Store) (k : Str) : Except JErr Store :=
  let cur := m.lookupJ k
  if cur.truthy then
    match cur with
    | .arr l => .ok ((l.foldl (fun acc p => acc.erase (jsToKeyStr p)) m).erase k)
    | _ => .error .typeError
  else .ok (m.erase k)

def flushIndexKeys : Store → List Str → Option JErr × Store
  | m, [] => (none, m)
  | m, k :: ks =>
    match flushIndexKey m k with
    | .ok m' => flushIndexKeys m' ks
    | .error e => (some e, m)

def flush (st : Mem) (t : Option TagSet) : Except JErr Unit × Mem :=
  match t with
  | some ts =>
    match flushIndexKeys st.memory ts.keys with
    | (some e, m) => (.error e, { st with memory := m })
    | (none, m) => (.ok (), { st with memory := m })
  | none => (.ok (), ⟨[], []⟩)

def has (st : Mem) (key : Str) (t : Option TagSet) : Bool :=
  (st.memory.lookup (resolveKey key t)).isSome

end MemoryDriver

/-! ### RedisDriver (drivers/redis.js): the operations the claims exercise.
The remote store is modelled as a map from keys to the (serialized) values
the driver wrote; a GET of an absent key yields null, an MGET yields null
slots. -/

namespace RedisDriver

def get (deser : JVal → JVal) (st : Store) (key : Str) (t : Option TagSet) : JVal :=
  let k := resolveKey key t
  deser ((st.lookup k).getD .null)

/-- MGET keeps one slot per requested key, null for absent keys, in request
order; the driver maps deserialize over the reply. -/
def getMany (deser : JVal → JVal) (st : Store) (keys : List Str) (t : Option TagSet) :
    List JVal :=
  ((match t with
    | some ts => keys.map ts.ref
    | none => keys).map (fun k => (st.lookup k).getD .null)).map deser

def increment (ser deser : JVal → JVal) (st : Store) (key : Str) (amount : Int)
    (t : Option TagSet) : Except JErr JVal × Store :=
  let k := resolveKey key t
  let raw := (st.lookup k).getD .null
  let value := if jsLooseEqUndef raw then .num 0 else deser raw
  if jsNumberIsNaN value then (.error .invalidOperand, st)
  else
    let value := jsAdd value amount
    (.ok value, st.insert k (ser value))

def decrement (ser deser : JVal → JVal) (st : Store) (key : Str) (amount : Int)
    (t : Option TagSet) : Except JErr JVal × Store :=
  let k := resolveKey key t
  let raw := (st.lookup k).getD .null
  let value := if jsLooseEqUndef raw then .num 0 else deser raw
  if jsNumberIsNaN value then (.error .invalidOperand, st)
  else
    let value := jsSub value amount
    (.ok value, st.insert k (ser value))

end RedisDriver

/-! ### MemcachedDriver (drivers/memcached.js): the operations the claims
exercise.  A get of an absent key yields undefined; getMulti replies with an
object holding only the found keys, and the driver maps deserialize over
Object.keys of that object, so absent keys contribute no slot. -/

namespace MemcachedDriver

def get (deser : JVal → JVal) (st : Store) (key : Str) (t : Option TagSet) : JVal :=
  deser (st.lookupJ (resolveKey key t))

def getMany (deser : JVal → JVal) (st : Store) (keys : List Str) (t : Option TagSet) :
    List JVal :=
  ((match t with
    | some ts => keys.map ts.ref
    | none => keys).filterMap st.lookup).map deser

def increment (ser deser : JVal → JVal) (st : Store) (key : Str) (amount : Int)
    (t : Option TagSet) : Except JErr JVal × Store :=
  let k := resolveKey key t
  let raw := st.lookupJ k
  let value := if jsLooseEqUndef raw then .num 0 else deser raw
  if jsNumberIsNaN value then (.error .invalidOperand, st)
  else
    let value := jsAdd value amount
    (.ok value, st.insert k (ser value))

def decrement (ser deser : JVal → JVal) (st : Store) (key : Str) (amount : Int)
    (t : Option TagSet) : Except JErr JVal × Store :=
  let k := resolveKey key t
  let raw := st.lookupJ k
  let value := if jsLooseEqUndef raw then .num 0 else deser raw
  if jsNumberIsNaN value then (.error .invalidOperand, st)
  else
    let value := jsSub value amount
    (.ok value, st.insert k (ser value))

end MemcachedDriver

/-! ### The dispose path of MemoryDriver, with the timer world made
explicit. -/

/-- The mutable fields of a MemoryDriver object; a deleted field reads as
undefined, so each is an Option. -/
structure MemoryObj where
  memory : Option Store
  roster : Option (List TtlEntry)
  timer : Option Nat

/-- clearInterval: cancels the identified interval; called with undefined it
is a no-op. -/
def clearIntervalModel (active : List Nat) (h : Option Nat) : List Nat :=
  match h with
  | some id => active.filter (fun x => x != id)
  | none => active

/-- dispose, in source statement order: the three field deletions happen
before clearInterval reads this.timer. -/
def MemoryDriver.dispose (active : List Nat) (d : MemoryObj) : List Nat × MemoryObj :=
  let d := { d with memory := none }
  let d := { d with roster := none }
  let d := { d with timer := none }
  let active := clearIntervalModel active d.timer
  (active, d)

/-! ### Operation sequences over a MemoryDriver, for the tag-index
invariant. -/

inductive MemOp where
  | put (k : Str) (v : JVal) (ttl : Option Int) (t : Option TagSet) : MemOp
  | putMany (entries : List (Str × JVal)) (ttl : Option Int) (t : Option TagSet) : MemOp
  | forever (k : Str) (v : JVal) (t : Option TagSet) : MemOp
  | forget (k : Str) (t : Option TagSet) : MemOp
  | flush (t : Option TagSet) : MemOp
  | increment (k : Str) (a : Int) (t : Option TagSet) : MemOp
  | decrement (k : Str) (a : Int) (t : Option TagSet) : MemOp
  | tick : MemOp

/-- The state reached after one operation (a rejected operation leaves the
state it had mutated up to the throw). -/
def execOp (ser deser : JVal → JVal) (st : Mem) : MemOp → Mem
  | .put k v ttl t => (MemoryDriver.put ser st k v ttl t).2
  | .putMany es ttl t => (MemoryDriver.putMany ser st es ttl t).2
  | .forever k v t => (MemoryDriver.forever ser st k v t).2
  | .forget k t => (MemoryDriver.forget st k t).2
  | .flush t => (MemoryDriver.flush st t).2
  | .increment k a t => (MemoryDriver.increment ser deser st k a t).2
  | .decrement k a t => (MemoryDriver.decrement ser deser st k a t).2
  | .tick => MemoryDriver.tick st

def execOps (ser deser : JVal → JVal) (st : Mem) (ops : List MemOp) : Mem :=
  ops.foldl (execOp ser deser) st

/-- The identity serializer: Driver.serialize and Driver.deserialize when no
serializer is configured. -/
def idSer : JVal → JVal := fun v => v

/-- A serializer instance whose deserialize inverts serialize but whose
serialize is not idempotent, with the shape of the shipped codecs (values
are wrapped into a distinct representation). -/
def wrapSer : JVal → JVal := fun v => .arr [v]

def wrapDeser : JVal → JVal := fun v =>
  match v with
  | .arr [w] => w
  | w => w

/-- Duplicate-freedom of every array held in a store; the tag-index
invariant is its restriction to "tags:"-prefixed keys. -/
def GoodArrays (m : Store) : Prop :=
  ∀ k l, m.lookup k = some (.arr l) → l.Nodup

/-! ## Theorems -/

/-! ### Store lemmas -/

namespace Store

@[simp] theorem lookup_nil (k : Str) : Store.lookup [] k = none := rfl

theorem lookup_erase_self (m : Store) (k : Str) : (m.erase k).lookup k = none := by
  induction m with
  | nil => rfl
  | cons p m ih =>
    by_cases h : k = p.1
    · simpa [Store.erase, h] using ih
    · simp [Store.erase, Store.lookup, h, ih]

theorem lookup_erase_ne (m : Store) (k k' : Str) (h : k' ≠ k) :
    (m.erase k).lookup k' = m.lookup k' := by
  induction m with
  | nil => rfl
  | cons p m ih =>
    by_cases hk : k = p.1
    · subst hk
      simp [Store.erase, Store.lookup, h, ih]
    · by_cases hk' : k' = p.1 <;> simp [Store.erase, Store.lookup, hk, hk', ih]

theorem lookup_insert_self (m : Store) (k : Str) (v : JVal) :
    (m.insert k v).lookup k = some v := by
  simp [Store.insert, Store.lookup]

theorem lookup_insert_ne (m : Store) (k k' : Str) (v : JVal) (h : k' ≠ k) :
    (m.insert k v).lookup k' = m.lookup k' := by
  simp [Store.insert, Store.lookup, h, lookup_erase_ne m k k' h]

theorem lookup_erase_none (m : Store) (k x : Str) (h : m.lookup x = none) :
    (m.erase k).lookup x = none := by
  by_cases hk : x = k
  · subst hk; exact lookup_erase_self m x
  · rw [lookup_erase_ne m k x hk]; exact h

/-- Folding deletions over a list leaves any key outside the deleted image
unchanged. -/
theorem lookup_foldl_erase_ne (l : List JVal) (f : JVal → Str) (m : Store) (x : Str)
    (h : ∀ p ∈ l, f p ≠ x) :
    (l.foldl (fun acc p => acc.erase (f p)) m).lookup x = m.lookup x := by
  induction l generalizing m with
  | nil => rfl
  | cons p l ih =>
    have hp : f p ≠ x := h p (List.mem_cons_self p l)
    have hrest : ∀ q ∈ l, f q ≠ x := fun q hq => h q (List.mem_cons_of_mem p hq)
    simp only [List.foldl_cons]
    rw [ih (m.erase (f p)) hrest, lookup_erase_ne m (f p) x (fun he => hp he.symm)]

theorem lookup_foldl_erase_none (l : List JVal) (f : JVal → Str) (m : Store) (x : Str)
    (h : m.lookup x = none) :
    (l.foldl (fun acc p => acc.erase (f p)) m).lookup x = none := by
  induction l generalizing m with
  | nil => exact h
  | cons p l ih =>
    simp only [List.foldl_cons]
    exact ih (m.erase (f p)) (lookup_erase_none m (f p) x h)

/-- Folding deletions over a list kills every key in the deleted image. -/
theorem lookup_foldl_erase_mem (l : List JVal) (f : JVal → Str) (m : Store) (x : Str)
    (h : ∃ p ∈ l, f p = x) :
    (l.foldl (fun acc p => acc.erase (f p)) m).lookup x = none := by
  induction l generalizing m with
  | nil => exact absurd h (by simp)
  | cons p l ih =>
    simp only [List.foldl_cons]
    rcases h with ⟨q, hq, hfx⟩
    rcases List.mem_cons.mp hq with hq | hq
    · subst hq
      apply lookup_foldl_erase_none
      rw [hfx]
      exact lookup_erase_self m x
    · exact ih (m.erase (f p)) ⟨q, hq, hfx⟩

end Store

/-! ### Shape of reference keys -/

theorem hexDigit_mem (n : Nat) : hexDigit n ∈ hexCharList := by
  by_cases h : n < 16
  · interval_cases n <;> decide
  · unfold hexDigit
    rw [List.getD_eq_default]
    · decide
    · have : hexCharList.length = 16 := by decide
      omega

/-- A hex digest is a nonempty string starting with a hex digit. -/
theorem sha1hex_eq_cons (s : Str) :
    ∃ c rest, sha1hex s = c :: rest ∧ c ∈ hexCharList :=
  ⟨_, _, rfl, hexDigit_mem _⟩

/-- A reference key never coincides with a tag index storage key: the digest
starts with a hex digit while index keys start with the letter t. -/
theorem TagSet.ref_ne_tagsKey (t : TagSet) (key n : Str) : t.ref key ≠ tagsKey n := by
  obtain ⟨c, rest, hc, hmem⟩ := sha1hex_eq_cons t.nspace
  unfold TagSet.ref TagSet.hash tagsKey
  rw [hc]
  intro h
  have hct : c = 't' := by
    have := congrArg (fun l => List.head? l) h
    simpa using this
  subst hct
  exact absurd hmem (by decide)

theorem tagsKey_ne (a b : Str) (h : a ≠ b) : tagsKey a ≠ tagsKey b := by
  intro he
  exact h (List.append_cancel_left he)

/-! ### Validation of the SHA-1 embedding against the standard test vector -/

set_option maxRecDepth 100000 in
theorem sha1hex_abc :
    sha1hex "abc".data = "a9993e364706816aba3e25717850c26c9cd0d89d".data := by decide

/-! ### C4: increment on an absent key -/

/-- C4: increment on an absent key.  The Redis and Memcached drivers treat
the absent value as 0 and resolve with the amount (and decrement with its
negation), but MemoryDriver.increment compares the typeof string against the
undefined value, a comparison that is always false, so the absent-means-zero
branch never runs and the call rejects with the invalid-operand error
instead of resolving with the amount.  Evaluated here at the failing input
increment("counter", 5) on an empty store. -/
theorem increment_absent_key :
    MemoryDriver.increment idSer idSer memInit "counter".data 5 none
      = (.error .invalidOperand, memInit)
    ∧ RedisDriver.increment idSer idSer [] "counter".data 5 none
      = (.ok (.num 5), [("counter".data, .num 5)])
    ∧ MemcachedDriver.increment idSer idSer [] "counter".data 5 none
      = (.ok (.num 5), [("counter".data, .num 5)])
    ∧ RedisDriver.decrement idSer idSer [] "counter".data 5 none
      = (.ok (.num (-5)), [("counter".data, .num (-5))])
    ∧ MemcachedDriver.decrement idSer idSer [] "counter".data 5 none
      = (.ok (.num (-5)), [("counter".data, .num (-5))]) :=
  ⟨rfl, rfl, rfl, rfl, rfl⟩

/-! ### C5: increment against a non-numeric stored value -/

/-- C5: increment on a key holding a string.  MemoryDriver rejects with the
invalid-operand error and leaves the value in place, but the Redis and
Memcached drivers guard with Number.isNaN, which is false for every
non-number value, so a stored string is not rejected: the amount is
concatenated onto it and the result overwrites the stored value.  Evaluated
at the failing input increment("k", 5) with "abc" stored. -/
theorem increment_string_value :
    RedisDriver.increment idSer idSer [("k".data, .str "abc".data)] "k".data 5 none
      = (.ok (.str "abc5".data), [("k".data, .str "abc5".data)])
    ∧ MemcachedDriver.increment idSer idSer [("k".data, .str "abc".data)] "k".data 5 none
      = (.ok (.str "abc5".data), [("k".data, .str "abc5".data)])
    ∧ MemoryDriver.increment idSer idSer ⟨[("k".data, .str "abc".data)], []⟩ "k".data 5 none
      = (.error .invalidOperand, ⟨[("k".data, .str "abc".data)], []⟩) :=
  ⟨rfl, rfl, rfl⟩

/-! ### C7: forever versus put with no expiration -/

/-- C7: MemoryDriver.forever hands this.serialize(value) back to put, which
serializes it a second time, so with any serializer whose encoding is not
idempotent the state after forever(k, v) differs from the state after
put(k, v, 0): the value slot holds serialize(serialize(v)) instead of
serialize(v), and a subsequent get returns serialize applied once to v
rather than v.  The no-roster part of the claim does hold: neither call
pushes a TTL entry.  Exhibited with a round-tripping serializer. -/
theorem forever_double_serializes :
    (∀ v, wrapDeser (wrapSer v) = v)
    ∧ MemoryDriver.forever wrapSer memInit "k".data (.num 1) none
      = (.ok (), ⟨[("k".data, .arr [.arr [.num 1]])], []⟩)
    ∧ MemoryDriver.put wrapSer memInit "k".data (.num 1) (some 0) none
      = (.ok (), ⟨[("k".data, .arr [.num 1])], []⟩)
    ∧ JVal.arr [.arr [.num 1]] ≠ JVal.arr [.num 1]
    ∧ MemoryDriver.get wrapDeser ⟨[("k".data, .arr [.arr [.num 1]])], []⟩ "k".data none
      = .arr [.num 1]
    ∧ JVal.arr [.num 1] ≠ JVal.num 1 := by
  refine ⟨?_, rfl, rfl, by simp, rfl, by simp⟩
  intro v
  cases v <;> rfl

/-! ### C9: dispose and the sweep timer -/

/-- C9: dispose deletes the timer field before calling clearInterval on it,
so clearInterval receives undefined and is a no-op: after dispose() the
interval that was live before the call is still active and the sweep keeps
firing.  Evaluated on a driver whose timer handle is interval 7. -/
theorem dispose_leaves_timer_running :
    MemoryDriver.dispose [7] ⟨some [], some [], some 7⟩ = ([7], ⟨none, none, none⟩)
    ∧ clearIntervalModel [7] (some 7) = [] :=
  ⟨rfl, rfl⟩

/-! ### C6 counterexample: the claimed expiration tick is one too early -/

/-- C6 counterexample: the claim says an entry stored with TTL = 1 is absent
after the first sweep tick, but the sweep decrements first and only evicts
an entry whose counter was already at zero on entry to the tick, so after
one tick the entry is still retrievable; it disappears one tick later. -/
theorem expiry_after_claimed_tick :
    MemoryDriver.get idSer
      (MemoryDriver.tick (MemoryDriver.put idSer memInit "k".data (.num 7) (some 1) none).2)
      "k".data none = .num 7
    ∧ JVal.num 7 ≠ .undef
    ∧ MemoryDriver.get idSer
      (MemoryDriver.tick (MemoryDriver.tick
        (MemoryDriver.put idSer memInit "k".data (.num 7) (some 1) none).2))
      "k".data none = .undef :=
  ⟨rfl, by simp, rfl⟩

/-! ### C8 counterexample: Memcached getMany drops absent slots -/

/-- C8 counterexample: MemcachedDriver.getMany maps deserialize over
Object.keys of the getMulti reply, which holds only the found keys, so a
request for two keys of which one is absent resolves with a single-element
sequence: the absent key has no slot and the length is not preserved. -/
theorem memcached_getMany_drops_absent :
    MemcachedDriver.getMany idSer [("k1".data, .num 1)] ["k1".data, "k2".data] none
      = [.num 1]
    ∧ ([JVal.num 1]).length ≠ (["k1".data, "k2".data]).length :=
  ⟨rfl, by simp⟩

/-! ### C10 counterexample: a direct put can plant a duplicate array under a
tag index key -/

/-- C10 counterexample: the claimed invariant quantifies over every
operation sequence, but an untagged put whose plain key is itself
"tags:"-prefixed stores its (serialized) value there unchecked; with the
identity serialization of a driver configured without a serializer, one such
put plants an array with duplicate entries under a tag index key. -/
theorem tags_key_direct_put_duplicates :
    (execOps idSer idSer memInit
        [MemOp.put "tags:x".data (.arr [.str "r".data, .str "r".data]) none none]).memory.lookup
      (tagsKey "x".data) = some (.arr [.str "r".data, .str "r".data])
    ∧ ¬ ([JVal.str "r".data, JVal.str "r".data].Nodup) :=
  ⟨rfl, by simp⟩

/-! ### C3 counterexample: reordering need not change the digest -/

/-- C3 counterexample: two distinct orderings of the same two tag names
whose first name embeds the pipe separator and the tags prefix produce the
very same namespace string, hence the same digest and the same reference
keys, refuting the claim that reordering always changes the digest. -/
theorem tagset_reorder_digest_collision :
    (["a|tags:a".data, "a".data] : List Str) ≠ ["a".data, "a|tags:a".data]
    ∧ (["a|tags:a".data, "a".data] : List Str).Perm ["a".data, "a|tags:a".data]
    ∧ TagSet.ref ⟨["a|tags:a".data, "a".data]⟩ "x".data
      = TagSet.ref ⟨["a".data, "a|tags:a".data]⟩ "x".data := by
  refine ⟨by decide, List.Perm.swap "a".data "a|tags:a".data [], ?_⟩
  have h : TagSet.nspace ⟨["a|tags:a".data, "a".data]⟩
      = TagSet.nspace ⟨["a".data, "a|tags:a".data]⟩ := by decide
  simp [TagSet.ref, TagSet.hash, h]

/-! ### C2: put followed by get -/

/-- C2: round-trip for MemoryDriver.  Whenever put(k, v, ttl, tagset?)
succeeds under a serializer whose deserialize inverts serialize on v, an
immediate get(k, tagset?) — no sweep tick in between, so no eviction —
returns v: put writes the tag indexes first and the serialized value at the
resolved key last, and get reads exactly that slot. -/
theorem put_get_roundtrip (ser deser : JVal → JVal) (v : JVal)
    (hrt : deser (ser v) = v) (st : Mem) (key : Str) (ttl : Option Int)
    (t : Option TagSet) (st' : Mem)
    (h : MemoryDriver.put ser st key v ttl t = (.ok (), st')) :
    MemoryDriver.get deser st' key t = v := by
  cases t with
  | none =>
    simp only [MemoryDriver.put] at h
    injection h with h1 h2
    rw [← h2]
    simp [MemoryDriver.get, resolveKey, Store.lookupJ, Store.lookup_insert_self, hrt]
  | some ts =>
    simp only [MemoryDriver.put] at h
    rcases hp : MemoryDriver.putIndexKeys st.memory ts.keys (ts.ref key) with ⟨r, m⟩
    rw [hp] at h
    cases r with
    | some e => injection h with h1 h2; simp at h1
    | none =>
      injection h with h1 h2
      rw [← h2]
      simp [MemoryDriver.get, resolveKey, Store.lookupJ, Store.lookup_insert_self, hrt]

/-- Closed instance of the C2 theorem at a concrete untagged put on the
empty store with the identity serializer. -/
theorem put_get_roundtrip_witness :
    MemoryDriver.get idSer
      ⟨[("k".data, .num 1)], [⟨"k".data, 5⟩]⟩ "k".data none = .num 1 :=
  put_get_roundtrip idSer idSer (.num 1) rfl memInit "k".data (some 5) none
    ⟨[("k".data, .num 1)], [⟨"k".data, 5⟩]⟩ rfl

/-! ### C6: expiration timing of the sweep (amended) -/

/-- While the roster counter stays positive the sweep only decrements it and
the value survives. -/
theorem tick_iter_live (k : Str) (sv : JVal) (c : Int) (j : Nat)
    (hj : (j : Int) ≤ c) :
    MemoryDriver.tick^[j] ⟨[(k, sv)], [⟨k, c⟩]⟩ = ⟨[(k, sv)], [⟨k, c - j⟩]⟩ := by
  induction j with
  | zero => simp
  | succ n ih =>
    have hn : (n : Int) ≤ c := by push_cast at hj ⊢; omega
    rw [Function.iterate_succ_apply', ih hn]
    have hpos : ¬ (c - (n : Int) ≤ 0) := by push_cast at hj; omega
    simp only [MemoryDriver.tick, List.foldr, MemoryDriver.tickStep, hpos, if_neg]
    have : c - (n : Int) - 1 = c - ((n : Nat) + 1 : Nat) := by push_cast; ring
    rw [this]
    simp

/-- C6 amended: an entry stored with TTL = N sweep ticks (N at least 1) on a
fresh MemoryDriver is retrievable after each of the first N sweep ticks and
absent from tick N+1 onwards — the sweep decrements first and evicts an
entry only on the tick after its counter reached zero, one tick later than
the claim states. -/
theorem put_ttl_expiry (ser deser : JVal → JVal) (k : Str) (v : JVal) (N j : Nat)
    (hrt : deser (ser v) = v) (hdu : deser .undef = .undef) (hN : 1 ≤ N) :
    (j ≤ N → MemoryDriver.get deser
        (MemoryDriver.tick^[j] (MemoryDriver.put ser memInit k v (some (N : Int)) none).2)
        k none = v)
    ∧ (N + 1 ≤ j → MemoryDriver.get deser
        (MemoryDriver.tick^[j] (MemoryDriver.put ser memInit k v (some (N : Int)) none).2)
        k none = .undef) := by
  have htt : ttlTruthy (some (N : Int)) = true := by
    simp [ttlTruthy]
    omega
  have hstate : (MemoryDriver.put ser memInit k v (some (N : Int)) none).2
      = ⟨[(k, ser v)], [⟨k, (N : Int)⟩]⟩ := by
    simp [MemoryDriver.put, memInit, Store.insert, Store.erase, htt]
  constructor
  · intro hj
    rw [hstate, tick_iter_live k (ser v) N j (by exact_mod_cast hj)]
    simp [MemoryDriver.get, resolveKey, Store.lookupJ, Store.lookup, hrt]
  · intro hj
    obtain ⟨m, rfl⟩ : ∃ m, j = m + (N + 1) := ⟨j - (N + 1), by omega⟩
    rw [hstate, Function.iterate_add_apply, Function.iterate_succ_apply',
      tick_iter_live k (ser v) N N (by simp)]
    have hzero : ((N : Int) - (N : Nat) : Int) = 0 := by omega
    rw [hzero]
    have hevict : MemoryDriver.tick ⟨[(k, ser v)], [⟨k, 0⟩]⟩ = ⟨[], []⟩ := by
      simp [MemoryDriver.tick, MemoryDriver.tickStep, Store.erase]
    rw [hevict, Function.iterate_fixed rfl]
    simp [MemoryDriver.get, resolveKey, Store.lookupJ, Store.lookup, hdu]

/-- Closed instance of the amended C6 theorem at TTL = 2 with the identity
serializer, at a tick count on each side of the boundary. -/
theorem put_ttl_expiry_witness :
    (2 ≤ 2 → MemoryDriver.get idSer
        (MemoryDriver.tick^[2] (MemoryDriver.put idSer memInit "k".data (.num 7)
          (some ((2 : Nat) : Int)) none).2) "k".data none = .num 7)
    ∧ (2 + 1 ≤ 2 → MemoryDriver.get idSer
        (MemoryDriver.tick^[2] (MemoryDriver.put idSer memInit "k".data (.num 7)
          (some ((2 : Nat) : Int)) none).2) "k".data none = .undef) :=
  put_ttl_expiry idSer idSer "k".data (.num 7) 2 2 rfl rfl (by decide)

/-! ### C3: reference-key derivation (amended) -/

/-- Peeling one separator-free block off both sides of a string equation:
if neither block contains the separator and both remainders are empty or
start with it, block and remainder agree. -/
theorem sep_block_peel (x : Str) : ∀ (y r1 r2 : Str), '|' ∉ x → '|' ∉ y →
    (r1 = [] ∨ ∃ t1, r1 = '|' :: t1) → (r2 = [] ∨ ∃ t2, r2 = '|' :: t2) →
    x ++ r1 = y ++ r2 → x = y ∧ r1 = r2 := by
  induction x with
  | nil =>
    intro y r1 r2 _ hy h1 h2 he
    cases y with
    | nil => simpa using he
    | cons c y' =>
      exfalso
      rcases h1 with rfl | ⟨t1, rfl⟩
      · simp at he
      · simp only [List.nil_append, List.cons_append, List.cons.injEq] at he
        exact hy (he.1 ▸ List.mem_cons_self c y')
  | cons a x' ih =>
    intro y r1 r2 hx hy h1 h2 he
    cases y with
    | nil =>
      exfalso
      rcases h2 with rfl | ⟨t2, rfl⟩
      · simp at he
      · simp only [List.cons_append, List.nil_append, List.cons.injEq] at he
        exact hx (he.1.symm ▸ List.mem_cons_self a x')
    | cons b y' =>
      simp only [List.cons_append, List.cons.injEq] at he
      obtain ⟨rfl, he⟩ := he
      have hx' : '|' ∉ x' := fun hm => hx (List.mem_cons_of_mem a hm)
      have hy' : '|' ∉ y' := fun hm => hy (List.mem_cons_of_mem a hm)
      obtain ⟨rfl, hr⟩ := ih y' r1 r2 hx' hy' h1 h2 he
      exact ⟨rfl, hr⟩

theorem intercalate_pipe_cons (x : Str) (l : List Str) :
    List.intercalate ['|'] (x :: l)
      = x ++ (match l with
          | [] => []
          | _ :: _ => '|' :: List.intercalate ['|'] l) := by
  cases l with
  | nil => simp [List.intercalate]
  | cons y l' => simp [List.intercalate, List.intersperse]

/-- Joining with the pipe separator is injective on lists of nonempty
pipe-free strings. -/
theorem intercalate_pipe_inj (l1 : List Str) : ∀ (l2 : List Str),
    (∀ x ∈ l1, x ≠ [] ∧ '|' ∉ x) → (∀ x ∈ l2, x ≠ [] ∧ '|' ∉ x) →
    List.intercalate ['|'] l1 = List.intercalate ['|'] l2 → l1 = l2 := by
  induction l1 with
  | nil =>
    intro l2 _ h2 he
    cases l2 with
    | nil => rfl
    | cons y l2' =>
      exfalso
      rw [intercalate_pipe_cons] at he
      have hy : y ≠ [] := (h2 y (List.mem_cons_self y l2')).1
      cases y with
      | nil => exact hy rfl
      | cons c y' => simp [List.intercalate] at he
  | cons x l1' ih =>
    intro l2 h1 h2 he
    have hx := h1 x (List.mem_cons_self x l1')
    have h1' : ∀ z ∈ l1', z ≠ [] ∧ '|' ∉ z := fun z hz => h1 z (List.mem_cons_of_mem x hz)
    cases l2 with
    | nil =>
      exfalso
      rw [intercalate_pipe_cons] at he
      cases x with
      | nil => exact hx.1 rfl
      | cons c x' => simp [List.intercalate] at he
    | cons y l2' =>
      have hy := h2 y (List.mem_cons_self y l2')
      have h2' : ∀ z ∈ l2', z ≠ [] ∧ '|' ∉ z := fun z hz => h2 z (List.mem_cons_of_mem y hz)
      rw [intercalate_pipe_cons, intercalate_pipe_cons] at he
      cases l1' with
      | nil =>
        cases l2' with
        | nil =>
          obtain ⟨rfl, -⟩ := sep_block_peel x y [] [] hx.2 hy.2
            (Or.inl rfl) (Or.inl rfl) he
          rfl
        | cons w l' =>
          exfalso
          obtain ⟨-, hr⟩ := sep_block_peel x y []
            ('|' :: List.intercalate ['|'] (w :: l')) hx.2 hy.2
            (Or.inl rfl) (Or.inr ⟨_, rfl⟩) he
          simp at hr
      | cons z l =>
        cases l2' with
        | nil =>
          exfalso
          obtain ⟨-, hr⟩ := sep_block_peel x y
            ('|' :: List.intercalate ['|'] (z :: l)) [] hx.2 hy.2
            (Or.inr ⟨_, rfl⟩) (Or.inl rfl) he
          simp at hr
        | cons w l' =>
          obtain ⟨rfl, hr⟩ := sep_block_peel x y
            ('|' :: List.intercalate ['|'] (z :: l))
            ('|' :: List.intercalate ['|'] (w :: l')) hx.2 hy.2
            (Or.inr ⟨_, rfl⟩) (Or.inr ⟨_, rfl⟩) he
          have hr' : List.intercalate ['|'] (z :: l) = List.intercalate ['|'] (w :: l') := by
            injection hr
          exact congrArg _ (ih (w :: l') h1' h2' hr')

theorem tagsKey_pipe_free (n : Str) (h : '|' ∉ n) : tagsKey n ≠ [] ∧ '|' ∉ tagsKey n := by
  refine ⟨by simp [tagsKey], ?_⟩
  intro hm
  rcases List.mem_append.mp hm with hm | hm
  · exact absurd hm (by decide)
  · exact h hm

theorem map_tagsKey_inj (N1 N2 : List Str) (h : N1.map tagsKey = N2.map tagsKey) :
    N1 = N2 := by
  have hinj : Function.Injective tagsKey := fun a b hab => List.append_cancel_left hab
  exact List.map_injective_iff.mpr hinj h

/-- C3 amended: the reference key is exactly the lowercase hex SHA-1 digest
of the pipe-joined "tags:"-prefixed names followed by a colon and the key (a
pure function of the ordered name sequence, hence deterministic), and two
orderings of the same names that differ as sequences produce different
digest inputs whenever no name contains the pipe character; a name embedding
the separator pattern can make two orderings collide, so the inequality is
stated on the namespace strings fed to the hash. -/
theorem tagset_ref_format_order (N1 N2 : List Str) (k : Str)
    (hperm : N1.Perm N2) (hne : N1 ≠ N2) (hfree : ∀ n ∈ N1, '|' ∉ n) :
    TagSet.ref ⟨N1⟩ k = sha1hex (List.intercalate ['|'] (N1.map tagsKey)) ++ ':' :: k
    ∧ TagSet.nspace ⟨N1⟩ ≠ TagSet.nspace ⟨N2⟩ := by
  refine ⟨rfl, ?_⟩
  intro he
  have hfree2 : ∀ n ∈ N2, '|' ∉ n := fun n hn => hfree n (hperm.mem_iff.mpr hn)
  have h1 : ∀ x ∈ N1.map tagsKey, x ≠ [] ∧ '|' ∉ x := by
    intro x hx
    obtain ⟨n, hn, rfl⟩ := List.mem_map.mp hx
    exact tagsKey_pipe_free n (hfree n hn)
  have h2 : ∀ x ∈ N2.map tagsKey, x ≠ [] ∧ '|' ∉ x := by
    intro x hx
    obtain ⟨n, hn, rfl⟩ := List.mem_map.mp hx
    exact tagsKey_pipe_free n (hfree2 n hn)
  have hmap := intercalate_pipe_inj (N1.map tagsKey) (N2.map tagsKey) h1 h2 he
  exact hne (map_tagsKey_inj N1 N2 hmap)

/-- Closed instance of the amended C3 theorem on the two orderings of the
pipe-free names a and b. -/
theorem tagset_ref_format_order_witness :
    TagSet.ref ⟨["a".data, "b".data]⟩ "x".data
      = sha1hex (List.intercalate ['|'] (["a".data, "b".data].map tagsKey)) ++ ':' :: "x".data
    ∧ TagSet.nspace ⟨["a".data, "b".data]⟩ ≠ TagSet.nspace ⟨["b".data, "a".data]⟩ :=
  tagset_ref_format_order ["a".data, "b".data] ["b".data, "a".data] "x".data
    (List.Perm.swap "b".data "a".data []) (by decide) (by decide)

/-! ### C8: getMany shape and order (amended) -/

theorem length_filterMap_eq_countP (f : Str → Option JVal) (l : List Str) :
    (l.filterMap f).length = l.countP (fun x => (f x).isSome) := by
  induction l with
  | nil => rfl
  | cons x l ih => cases h : f x <;> simp [List.filterMap_cons, h, List.countP_cons, ih]

/-- C8 amended: for the Memory and Redis drivers getMany resolves with
exactly one slot per requested key in input order, the i-th slot holding the
deserialized value stored at the resolved i-th key (an absent key
contributing the deserialized absent marker, undefined for Memory and null
for Redis); the Memcached driver instead enumerates only the found keys, so
its result is the deserialization of the found values in order and its
length counts the found keys — absent keys contribute no slot. -/
theorem getMany_shapes (deser : JVal → JVal) (mst : Mem) (rst : Store) (cst : Store)
    (keys : List Str) (t : Option TagSet) :
    (MemoryDriver.getMany deser mst keys t).length = keys.length
    ∧ (∀ i : Nat, (MemoryDriver.getMany deser mst keys t)[i]?
        = (keys[i]?).map (fun k => deser (mst.memory.lookupJ (resolveKey k t))))
    ∧ (RedisDriver.getMany deser rst keys t).length = keys.length
    ∧ (∀ i : Nat, (RedisDriver.getMany deser rst keys t)[i]?
        = (keys[i]?).map (fun k => deser ((rst.lookup (resolveKey k t)).getD .null)))
    ∧ MemcachedDriver.getMany deser cst keys t
        = ((keys.map (fun k => resolveKey k t)).filterMap cst.lookup).map deser
    ∧ (MemcachedDriver.getMany deser cst keys t).length
        = (keys.map (fun k => resolveKey k t)).countP (fun k => (cst.lookup k).isSome) := by
  refine ⟨?_, ?_, ?_, ?_, ?_, ?_⟩
  · cases t <;> simp [MemoryDriver.getMany]
  · intro i
    cases t with
    | none => simp [MemoryDriver.getMany, resolveKey, List.getElem?_map]
    | some ts =>
      simp only [MemoryDriver.getMany, resolveKey, List.getElem?_map, Option.map_map]
      rfl
  · cases t <;> simp [RedisDriver.getMany]
  · intro i
    cases t with
    | none =>
      simp only [RedisDriver.getMany, resolveKey, List.getElem?_map, Option.map_map]
      rfl
    | some ts =>
      simp only [RedisDriver.getMany, resolveKey, List.getElem?_map, Option.map_map]
      rfl
  · cases t with
    | none => simp [MemcachedDriver.getMany, resolveKey]
    | some ts => simp [MemcachedDriver.getMany, resolveKey]
  · cases t with
    | none =>
      simp only [MemcachedDriver.getMany, List.length_map, resolveKey, List.map_id_fun,
        id_eq]
      rw [length_filterMap_eq_countP]
      simp
    | some ts =>
      simp only [MemcachedDriver.getMany, List.length_map, resolveKey]
      rw [length_filterMap_eq_countP]

/-! ### C1: tag isolation for MemoryDriver -/

theorem JVal.strictEq_str (x : JVal) (r : Str) (h : x.strictEq (.str r) = true) :
    x = .str r := by
  cases x <;> simp_all [JVal.strictEq]

/-- What the tagged-put index update guarantees when the index slot is
absent or an array: it succeeds, afterwards the slot is an array containing
the reference, and no other key moved. -/
theorem putIndexKey_spec (m : Store) (ka : Str) (ref : Str)
    (ha : m.lookup ka = none ∨ ∃ l, m.lookup ka = some (.arr l)) :
    ∃ m1 L, MemoryDriver.putIndexKey m ka ref = .ok m1
      ∧ m1.lookup ka = some (.arr L)
      ∧ (.str ref) ∈ L
      ∧ ∀ x, x ≠ ka → m1.lookup x = m.lookup x := by
  rcases ha with h | ⟨l, h⟩
  · refine ⟨m.insert ka (.arr [.str ref]), [.str ref], ?_, ?_, ?_, ?_⟩
    · simp [MemoryDriver.putIndexKey, Store.lookupJ, h, JVal.truthy]
    · exact Store.lookup_insert_self m ka _
    · simp
    · intro x hx
      exact Store.lookup_insert_ne m ka x _ hx
  · by_cases hany : l.any (fun x => x.strictEq (.str ref)) = true
    · refine ⟨m, l, ?_, h, ?_, fun x _ => rfl⟩
      · simp [MemoryDriver.putIndexKey, Store.lookupJ, h, JVal.truthy, hany]
      · obtain ⟨x, hx, hsx⟩ := List.any_eq_true.mp hany
        exact (JVal.strictEq_str x ref hsx) ▸ hx
    · refine ⟨m.insert ka (.arr (l ++ [.str ref])), l ++ [.str ref], ?_, ?_, ?_, ?_⟩
      · simp only [MemoryDriver.putIndexKey, Store.lookupJ, h, Option.getD_some,
          JVal.truthy]
        simp [hany]
      · exact Store.lookup_insert_self m ka _
      · simp
      · intro x hx
        exact Store.lookup_insert_ne m ka x _ hx

/-- C1: tag isolation for MemoryDriver.  From any state whose two index
slots are absent or arrays and whose disjoint-tag index does not reference
the key (both true of any state the tag machinery built), put(k, v, ttl,
tagset=A) succeeds; a flush(tagset=B) over the disjoint single tag B then
succeeds and leaves get(k, tagset=A) returning exactly what it returned
before the flush, while a flush(tagset=A) succeeds and makes
get(k, tagset=A) return the absent marker undefined. -/
theorem tag_isolation (ser deser : JVal → JVal) (hdu : deser .undef = .undef)
    (s : Mem) (a b k : Str) (v : JVal) (ttl : Option Int)
    (hab : a ≠ b)
    (ha : s.memory.lookup (tagsKey a) = none
        ∨ ∃ l, s.memory.lookup (tagsKey a) = some (.arr l))
    (hb : s.memory.lookup (tagsKey b) = none
        ∨ ∃ l, s.memory.lookup (tagsKey b) = some (.arr l)
            ∧ ∀ p ∈ l, jsToKeyStr p ≠ TagSet.ref ⟨[a]⟩ k) :
    ∃ s1 s2 s3,
      MemoryDriver.put ser s k v ttl (some ⟨[a]⟩) = (.ok (), s1)
      ∧ MemoryDriver.flush s1 (some ⟨[b]⟩) = (.ok (), s2)
      ∧ MemoryDriver.get deser s2 k (some ⟨[a]⟩)
          = MemoryDriver.get deser s1 k (some ⟨[a]⟩)
      ∧ MemoryDriver.flush s1 (some ⟨[a]⟩) = (.ok (), s3)
      ∧ MemoryDriver.get deser s3 k (some ⟨[a]⟩) = .undef := by
  obtain ⟨m1, L, hok, hka, hrefL, hother⟩ :=
    putIndexKey_spec s.memory (tagsKey a) (TagSet.ref ⟨[a]⟩ k) ha
  have hrefa : TagSet.ref ⟨[a]⟩ k ≠ tagsKey a := TagSet.ref_ne_tagsKey _ k a
  have hrefb : TagSet.ref ⟨[a]⟩ k ≠ tagsKey b := TagSet.ref_ne_tagsKey _ k b
  have hba : tagsKey b ≠ tagsKey a := tagsKey_ne b a (fun h => hab h.symm)
  have hpik : MemoryDriver.putIndexKeys s.memory (TagSet.keys ⟨[a]⟩)
      (TagSet.ref ⟨[a]⟩ k) = (none, m1) := by
    show MemoryDriver.putIndexKeys s.memory [tagsKey a] (TagSet.ref ⟨[a]⟩ k) = (none, m1)
    simp only [MemoryDriver.putIndexKeys, hok]
  have hput : MemoryDriver.put ser s k v ttl (some ⟨[a]⟩)
      = (.ok (), ⟨m1.insert (TagSet.ref ⟨[a]⟩ k) (ser v),
          if ttlTruthy ttl then s.ttl ++ [⟨TagSet.ref ⟨[a]⟩ k, ttl.getD 0⟩]
          else s.ttl⟩) := by
    simp only [MemoryDriver.put, hpik]
  -- the post-put value map
  have hm2ka : (m1.insert (TagSet.ref ⟨[a]⟩ k) (ser v)).lookup (tagsKey a)
      = some (.arr L) := by
    rw [Store.lookup_insert_ne _ _ _ _ (Ne.symm hrefa)]
    exact hka
  have hm2ref : (m1.insert (TagSet.ref ⟨[a]⟩ k) (ser v)).lookup (TagSet.ref ⟨[a]⟩ k)
      = some (ser v) := Store.lookup_insert_self _ _ _
  have hm2kb : (m1.insert (TagSet.ref ⟨[a]⟩ k) (ser v)).lookup (tagsKey b)
      = s.memory.lookup (tagsKey b) := by
    rw [Store.lookup_insert_ne _ _ _ _ (Ne.symm hrefb)]
    exact hother (tagsKey b) hba
  -- flush over tag a
  have hflushA : MemoryDriver.flush
      ⟨m1.insert (TagSet.ref ⟨[a]⟩ k) (ser v),
        if ttlTruthy ttl then s.ttl ++ [⟨TagSet.ref ⟨[a]⟩ k, ttl.getD 0⟩] else s.ttl⟩
      (some ⟨[a]⟩)
      = (.ok (), ⟨((L.foldl (fun acc p => acc.erase (jsToKeyStr p))
          (m1.insert (TagSet.ref ⟨[a]⟩ k) (ser v))).erase (tagsKey a)),
          if ttlTruthy ttl then s.ttl ++ [⟨TagSet.ref ⟨[a]⟩ k, ttl.getD 0⟩]
          else s.ttl⟩) := by
    have hfk : MemoryDriver.flushIndexKey
        (m1.insert (TagSet.ref ⟨[a]⟩ k) (ser v)) (tagsKey a)
        = .ok ((L.foldl (fun acc p => acc.erase (jsToKeyStr p))
            (m1.insert (TagSet.ref ⟨[a]⟩ k) (ser v))).erase (tagsKey a)) := by
      simp only [MemoryDriver.flushIndexKey, Store.lookupJ, hm2ka, Option.getD_some,
        JVal.truthy]
      simp
    show MemoryDriver.flush _ (some ⟨[a]⟩) = _
    simp only [MemoryDriver.flush, MemoryDriver.flushIndexKeys, TagSet.keys,
      List.map, hfk]
  have hgetA : MemoryDriver.get deser
      ⟨((L.foldl (fun acc p => acc.erase (jsToKeyStr p))
          (m1.insert (TagSet.ref ⟨[a]⟩ k) (ser v))).erase (tagsKey a)),
        if ttlTruthy ttl then s.ttl ++ [⟨TagSet.ref ⟨[a]⟩ k, ttl.getD 0⟩] else s.ttl⟩
      k (some ⟨[a]⟩) = .undef := by
    have hnone : (((L.foldl (fun acc p => acc.erase (jsToKeyStr p))
        (m1.insert (TagSet.ref ⟨[a]⟩ k) (ser v))).erase (tagsKey a))).lookup
        (TagSet.ref ⟨[a]⟩ k) = none := by
      rw [Store.lookup_erase_ne _ _ _ hrefa]
      exact Store.lookup_foldl_erase_mem L jsToKeyStr _ _ ⟨.str _, hrefL, rfl⟩
    simp only [MemoryDriver.get, resolveKey, Store.lookupJ, hnone, Option.getD_none]
    exact hdu
  rcases hb with hbn | ⟨l, hbl, hbp⟩
  · -- the disjoint index slot is absent: flush(B) only deletes the index key
    have hfk : MemoryDriver.flushIndexKey
        (m1.insert (TagSet.ref ⟨[a]⟩ k) (ser v)) (tagsKey b)
        = .ok ((m1.insert (TagSet.ref ⟨[a]⟩ k) (ser v)).erase (tagsKey b)) := by
      simp only [MemoryDriver.flushIndexKey, Store.lookupJ, hm2kb, hbn,
        Option.getD_none, JVal.truthy]
      rw [if_neg (by simp)]
    have hflushB : MemoryDriver.flush
        ⟨m1.insert (TagSet.ref ⟨[a]⟩ k) (ser v),
          if ttlTruthy ttl then s.ttl ++ [⟨TagSet.ref ⟨[a]⟩ k, ttl.getD 0⟩] else s.ttl⟩
        (some ⟨[b]⟩)
        = (.ok (), ⟨(m1.insert (TagSet.ref ⟨[a]⟩ k) (ser v)).erase (tagsKey b),
            if ttlTruthy ttl then s.ttl ++ [⟨TagSet.ref ⟨[a]⟩ k, ttl.getD 0⟩]
            else s.ttl⟩) := by
      show MemoryDriver.flush _ (some ⟨[b]⟩) = _
      simp only [MemoryDriver.flush, MemoryDriver.flushIndexKeys, TagSet.keys,
        List.map, hfk]
    have hgetB : MemoryDriver.get deser
        ⟨(m1.insert (TagSet.ref ⟨[a]⟩ k) (ser v)).erase (tagsKey b),
          if ttlTruthy ttl then s.ttl ++ [⟨TagSet.ref ⟨[a]⟩ k, ttl.getD 0⟩] else s.ttl⟩
        k (some ⟨[a]⟩)
        = MemoryDriver.get deser
        ⟨m1.insert (TagSet.ref ⟨[a]⟩ k) (ser v),
          if ttlTruthy ttl then s.ttl ++ [⟨TagSet.ref ⟨[a]⟩ k, ttl.getD 0⟩] else s.ttl⟩
        k (some ⟨[a]⟩) := by
      simp only [MemoryDriver.get, resolveKey, Store.lookupJ]
      rw [Store.lookup_erase_ne _ _ _ hrefb]
    exact ⟨_, _, _, hput, hflushB, hgetB, hflushA, hgetA⟩
  · -- the disjoint index slot is an array that does not reference the key
    have hm2kb' : (m1.insert (TagSet.ref ⟨[a]⟩ k) (ser v)).lookup (tagsKey b)
        = some (.arr l) := by rw [hm2kb]; exact hbl
    have hfk : MemoryDriver.flushIndexKey
        (m1.insert (TagSet.ref ⟨[a]⟩ k) (ser v)) (tagsKey b)
        = .ok ((l.foldl (fun acc p => acc.erase (jsToKeyStr p))
            (m1.insert (TagSet.ref ⟨[a]⟩ k) (ser v))).erase (tagsKey b)) := by
      simp only [MemoryDriver.flushIndexKey, Store.lookupJ, hm2kb', Option.getD_some,
        JVal.truthy]
      simp
    have hflushB : MemoryDriver.flush
        ⟨m1.insert (TagSet.ref ⟨[a]⟩ k) (ser v),
          if ttlTruthy ttl then s.ttl ++ [⟨TagSet.ref ⟨[a]⟩ k, ttl.getD 0⟩] else s.ttl⟩
        (some ⟨[b]⟩)
        = (.ok (), ⟨(l.foldl (fun acc p => acc.erase (jsToKeyStr p))
            (m1.insert (TagSet.ref ⟨[a]⟩ k) (ser v))).erase (tagsKey b),
            if ttlTruthy ttl then s.ttl ++ [⟨TagSet.ref ⟨[a]⟩ k, ttl.getD 0⟩]
            else s.ttl⟩) := by
      show MemoryDriver.flush _ (some ⟨[b]⟩) = _
      simp only [MemoryDriver.flush, MemoryDriver.flushIndexKeys, TagSet.keys,
        List.map, hfk]
    have hgetB : MemoryDriver.get deser
        ⟨(l.foldl (fun acc p => acc.erase (jsToKeyStr p))
            (m1.insert (TagSet.ref ⟨[a]⟩ k) (ser v))).erase (tagsKey b),
          if ttlTruthy ttl then s.ttl ++ [⟨TagSet.ref ⟨[a]⟩ k, ttl.getD 0⟩] else s.ttl⟩
        k (some ⟨[a]⟩)
        = MemoryDriver.get deser
        ⟨m1.insert (TagSet.ref ⟨[a]⟩ k) (ser v),
          if ttlTruthy ttl then s.ttl ++ [⟨TagSet.ref ⟨[a]⟩ k, ttl.getD 0⟩] else s.ttl⟩
        k (some ⟨[a]⟩) := by
      simp only [MemoryDriver.get, resolveKey, Store.lookupJ]
      rw [Store.lookup_erase_ne _ _ _ hrefb,
        Store.lookup_foldl_erase_ne l jsToKeyStr _ _ hbp]
    exact ⟨_, _, _, hput, hflushB, hgetB, hflushA, hgetA⟩

/-- Closed instance of the C1 theorem: tags a and b on the empty store with
the identity serializer. -/
theorem tag_isolation_witness :
    ∃ s1 s2 s3,
      MemoryDriver.put idSer memInit "k".data (.num 1) (some 5) (some ⟨["a".data]⟩)
        = (.ok (), s1)
      ∧ MemoryDriver.flush s1 (some ⟨["b".data]⟩) = (.ok (), s2)
      ∧ MemoryDriver.get idSer s2 "k".data (some ⟨["a".data]⟩)
          = MemoryDriver.get idSer s1 "k".data (some ⟨["a".data]⟩)
      ∧ MemoryDriver.flush s1 (some ⟨["a".data]⟩) = (.ok (), s3)
      ∧ MemoryDriver.get idSer s3 "k".data (some ⟨["a".data]⟩) = .undef :=
  tag_isolation idSer idSer rfl memInit "a".data "b".data "k".data (.num 1) (some 5)
    (by decide) (Or.inl rfl) (Or.inl rfl)

/-! ### C10: tag-index arrays stay duplicate-free (amended) -/

theorem lookupJ_arr (m : Store) (k : Str) (l : List JVal)
    (h : Store.lookupJ m k = .arr l) : m.lookup k = some (.arr l) := by
  unfold Store.lookupJ at h
  cases hx : m.lookup k with
  | none => rw [hx] at h; simp at h
  | some v => rw [hx] at h; simp at h; rw [h]

theorem notMem_of_any_strictEq_false (l : List JVal) (r : Str)
    (h : (l.any fun x => x.strictEq (.str r)) = false) : JVal.str r ∉ l := by
  intro hm
  have ht : (l.any fun x => x.strictEq (.str r)) = true :=
    List.any_eq_true.mpr ⟨_, hm, by simp [JVal.strictEq]⟩
  rw [h] at ht
  exact absurd ht (by simp)

theorem nodup_snoc (l : List JVal) (x : JVal) (hl : l.Nodup) (hx : x ∉ l) :
    (l ++ [x]).Nodup := by
  induction l with
  | nil => simp
  | cons a l ih =>
    rcases List.nodup_cons.mp hl with ⟨ha, hl'⟩
    have hx' : x ∉ l := fun hm => hx (List.mem_cons_of_mem a hm)
    refine List.nodup_cons.mpr ⟨?_, ih hl' hx'⟩
    intro hm
    rcases List.mem_append.mp hm with hm | hm
    · exact ha hm
    · simp at hm
      exact hx (hm ▸ List.mem_cons_self a l)

theorem goodArrays_nil : GoodArrays [] := by
  intro k l h
  simp [Store.lookup] at h

theorem GoodArrays.insert_nonarr (m : Store) (k : Str) (v : JVal)
    (hm : GoodArrays m) (hv : v.isArr = false) : GoodArrays (m.insert k v) := by
  intro x l hx
  by_cases hxk : x = k
  · subst hxk
    rw [Store.lookup_insert_self] at hx
    injection hx with h
    rw [h] at hv
    simp [JVal.isArr] at hv
  · rw [Store.lookup_insert_ne _ _ _ _ hxk] at hx
    exact hm x l hx

theorem GoodArrays.insert_arr (m : Store) (k : Str) (l : List JVal)
    (hm : GoodArrays m) (hl : l.Nodup) : GoodArrays (m.insert k (.arr l)) := by
  intro x l' hx
  by_cases hxk : x = k
  · subst hxk
    rw [Store.lookup_insert_self] at hx
    injection hx with h
    injection h with h
    rw [← h]
    exact hl
  · rw [Store.lookup_insert_ne _ _ _ _ hxk] at hx
    exact hm x l' hx

theorem GoodArrays.erase_key (m : Store) (k : Str) (hm : GoodArrays m) :
    GoodArrays (m.erase k) := by
  intro x l hx
  by_cases hxk : x = k
  · subst hxk
    rw [Store.lookup_erase_self] at hx
    exact absurd hx (by simp)
  · rw [Store.lookup_erase_ne _ _ _ hxk] at hx
    exact hm x l hx

theorem GoodArrays.foldl_erase (l : List JVal) (f : JVal → Str) (m : Store)
    (hm : GoodArrays m) :
    GoodArrays (l.foldl (fun acc p => acc.erase (f p)) m) := by
  induction l generalizing m with
  | nil => exact hm
  | cons p l ih =>
    simp only [List.foldl_cons]
    exact ih (m.erase (f p)) (hm.erase_key m (f p))

theorem putIndexKey_good (m : Store) (k ref : Str) (m' : Store)
    (hm : GoodArrays m) (h : MemoryDriver.putIndexKey m k ref = .ok m') :
    GoodArrays m' := by
  simp only [MemoryDriver.putIndexKey] at h
  split at h
  · split at h
    · rename_i l heq
      have hl : l.Nodup := hm k l (lookupJ_arr m k l heq)
      split at h
      · injection h with h'
        rw [← h']
        exact hm
      · rename_i hany
        injection h with h'
        rw [← h']
        exact GoodArrays.insert_arr m k _ hm
          (nodup_snoc l _ hl (notMem_of_any_strictEq_false l ref (by simpa using hany)))
    · exact absurd h (by simp)
  · injection h with h'
    rw [← h']
    exact GoodArrays.insert_arr m k _ hm (by simp)

theorem putIndexKeys_good (ks : List Str) : ∀ (m : Store) (ref : Str), GoodArrays m →
    GoodArrays (MemoryDriver.putIndexKeys m ks ref).2 := by
  induction ks with
  | nil => intro m ref hm; exact hm
  | cons k ks ih =>
    intro m ref hm
    simp only [MemoryDriver.putIndexKeys]
    cases hpk : MemoryDriver.putIndexKey m k ref with
    | ok m' =>
      simp only [hpk]
      exact ih m' ref (putIndexKey_good m k ref m' hm hpk)
    | error e =>
      simp only [hpk]
      exact hm

theorem put_good (ser : JVal → JVal) (hser : ∀ v, (ser v).isArr = false)
    (st : Mem) (k : Str) (v : JVal) (ttl : Option Int) (t : Option TagSet)
    (hm : GoodArrays st.memory) :
    GoodArrays (MemoryDriver.put ser st k v ttl t).2.memory := by
  cases t with
  | none =>
    simp only [MemoryDriver.put]
    exact GoodArrays.insert_nonarr _ _ _ hm (hser v)
  | some ts =>
    simp only [MemoryDriver.put]
    rcases hp : MemoryDriver.putIndexKeys st.memory ts.keys (ts.ref k) with ⟨r, m⟩
    have hmm : GoodArrays m := by
      have hg := putIndexKeys_good ts.keys st.memory (ts.ref k) hm
      rw [hp] at hg
      exact hg
    cases r with
    | some e => simp only [hp]; exact hmm
    | none => simp only [hp]; exact GoodArrays.insert_nonarr _ _ _ hmm (hser v)

theorem putMany_good (ser : JVal → JVal) (hser : ∀ v, (ser v).isArr = false)
    (ttl : Option Int) (t : Option TagSet) (entries : List (Str × JVal)) :
    ∀ (st : Mem), GoodArrays st.memory →
      GoodArrays (MemoryDriver.putMany ser st entries ttl t).2.memory := by
  suffices haux : ∀ (acc : Except JErr Unit × Mem), GoodArrays acc.2.memory →
      GoodArrays ((entries.foldl
        (fun acc e =>
          let r := MemoryDriver.put ser acc.2 e.1 e.2 ttl t
          (match acc.1 with
            | .error err => .error err
            | .ok _ => r.1, r.2)) acc)).2.memory by
    intro st hst
    exact haux (.ok (), st) hst
  induction entries with
  | nil => intro acc h; exact h
  | cons e es ih =>
    intro acc h
    simp only [List.foldl_cons]
    exact ih _ (put_good ser hser acc.2 e.1 e.2 ttl t h)

theorem forgetIndexKey_good (m : Store) (k ref : Str) (m' : Store)
    (hm : GoodArrays m) (h : MemoryDriver.forgetIndexKey m k ref = .ok m') :
    GoodArrays m' := by
  simp only [MemoryDriver.forgetIndexKey] at h
  split at h
  · split at h
    · rename_i l heq
      have hl : l.Nodup := hm k l (lookupJ_arr m k l heq)
      split at h
      · injection h with h'
        rw [← h']
        exact GoodArrays.insert_arr m k _ hm
          (List.Nodup.sublist (List.eraseP_sublist l) hl)
      · injection h with h'
        rw [← h']
        exact hm
    · exact absurd h (by simp)
  · injection h with h'
    rw [← h']
    exact hm

theorem forgetIndexKeys_good (ks : List Str) : ∀ (m : Store) (ref : Str), GoodArrays m →
    GoodArrays (MemoryDriver.forgetIndexKeys m ks ref).2 := by
  induction ks with
  | nil => intro m ref hm; exact hm
  | cons k ks ih =>
    intro m ref hm
    simp only [MemoryDriver.forgetIndexKeys]
    cases hpk : MemoryDriver.forgetIndexKey m k ref with
    | ok m' =>
      simp only [hpk]
      exact ih m' ref (forgetIndexKey_good m k ref m' hm hpk)
    | error e =>
      simp only [hpk]
      exact hm

theorem forget_good (st : Mem) (k : Str) (t : Option TagSet)
    (hm : GoodArrays st.memory) :
    GoodArrays (MemoryDriver.forget st k t).2.memory := by
  cases t with
  | none =>
    simp only [MemoryDriver.forget]
    exact GoodArrays.erase_key _ _ hm
  | some ts =>
    simp only [MemoryDriver.forget]
    rcases hp : MemoryDriver.forgetIndexKeys st.memory ts.keys (ts.ref k) with ⟨r, m⟩
    have hmm : GoodArrays m := by
      have hg := forgetIndexKeys_good ts.keys st.memory (ts.ref k) hm
      rw [hp] at hg
      exact hg
    cases r with
    | some e => simp only [hp]; exact hmm
    | none => simp only [hp]; exact GoodArrays.erase_key _ _ hmm

theorem flushIndexKey_good (m : Store) (k : Str) (m' : Store)
    (hm : GoodArrays m) (h : MemoryDriver.flushIndexKey m k = .ok m') :
    GoodArrays m' := by
  simp only [MemoryDriver.flushIndexKey] at h
  split at h
  · split at h
    · injection h with h'
      rw [← h']
      exact GoodArrays.erase_key _ _ (GoodArrays.foldl_erase _ _ _ hm)
    · exact absurd h (by simp)
  · injection h with h'
    rw [← h']
    exact GoodArrays.erase_key _ _ hm

theorem flushIndexKeys_good (ks : List Str) : ∀ (m : Store), GoodArrays m →
    GoodArrays (MemoryDriver.flushIndexKeys m ks).2 := by
  induction ks with
  | nil => intro m hm; exact hm
  | cons k ks ih =>
    intro m hm
    simp only [MemoryDriver.flushIndexKeys]
    cases hpk : MemoryDriver.flushIndexKey m k with
    | ok m' =>
      simp only [hpk]
      exact ih m' (flushIndexKey_good m k m' hm hpk)
    | error e =>
      simp only [hpk]
      exact hm

theorem flush_good (st : Mem) (t : Option TagSet) (hm : GoodArrays st.memory) :
    GoodArrays (MemoryDriver.flush st t).2.memory := by
  cases t with
  | none => exact goodArrays_nil
  | some ts =>
    simp only [MemoryDriver.flush]
    rcases hp : MemoryDriver.flushIndexKeys st.memory ts.keys with ⟨r, m⟩
    have hmm : GoodArrays m := by
      have hg := flushIndexKeys_good ts.keys st.memory hm
      rw [hp] at hg
      exact hg
    cases r with
    | some e => simp only [hp]; exact hmm
    | none => simp only [hp]; exact hmm

theorem increment_good (ser deser : JVal → JVal)
    (hser : ∀ v, (ser v).isArr = false) (st : Mem) (k : Str) (a : Int)
    (t : Option TagSet) (hm : GoodArrays st.memory) :
    GoodArrays (MemoryDriver.increment ser deser st k a t).2.memory := by
  simp only [MemoryDriver.increment, JVal.strictEq]
  simp only [if_neg Bool.false_ne_true]
  generalize deser (st.memory.lookupJ (resolveKey k t)) = w
  by_cases hc : jsTypeof w = ['n', 'u', 'm', 'b', 'e', 'r']
  · rw [if_pos hc]
    exact GoodArrays.insert_nonarr _ _ _ hm (hser _)
  · rw [if_neg hc]
    exact hm

theorem decrement_good (ser deser : JVal → JVal)
    (hser : ∀ v, (ser v).isArr = false) (st : Mem) (k : Str) (a : Int)
    (t : Option TagSet) (hm : GoodArrays st.memory) :
    GoodArrays (MemoryDriver.decrement ser deser st k a t).2.memory := by
  simp only [MemoryDriver.decrement, JVal.strictEq]
  simp only [if_neg Bool.false_ne_true]
  generalize deser (st.memory.lookupJ (resolveKey k t)) = w
  by_cases hc : jsTypeof w = ['n', 'u', 'm', 'b', 'e', 'r']
  · rw [if_pos hc]
    exact GoodArrays.insert_nonarr _ _ _ hm (hser _)
  · rw [if_neg hc]
    exact hm

theorem tickFold_good (roster : List TtlEntry) (acc : List TtlEntry × Store)
    (hacc : GoodArrays acc.2) :
    GoodArrays (roster.foldr MemoryDriver.tickStep acc).2 := by
  induction roster with
  | nil => exact hacc
  | cons e es ih =>
    simp only [List.foldr_cons]
    unfold MemoryDriver.tickStep
    split
    · exact GoodArrays.erase_key _ _ ih
    · exact ih

theorem tick_good (st : Mem) (hm : GoodArrays st.memory) :
    GoodArrays (MemoryDriver.tick st).memory :=
  tickFold_good st.ttl ([], st.memory) hm

theorem execOp_good (ser deser : JVal → JVal)
    (hser : ∀ v, (ser v).isArr = false) (st : Mem) (op : MemOp)
    (hm : GoodArrays st.memory) :
    GoodArrays (execOp ser deser st op).memory := by
  cases op with
  | put k v ttl t => exact put_good ser hser st k v ttl t hm
  | putMany es ttl t => exact putMany_good ser hser ttl t es st hm
  | forever k v t => exact put_good ser hser st k (ser v) none t hm
  | forget k t => exact forget_good st k t hm
  | flush t => exact flush_good st t hm
  | increment k a t => exact increment_good ser deser hser st k a t hm
  | decrement k a t => exact decrement_good ser deser hser st k a t hm
  | tick => exact tick_good st hm

theorem execOps_good (ser deser : JVal → JVal)
    (hser : ∀ v, (ser v).isArr = false) (ops : List MemOp) :
    ∀ (st : Mem), GoodArrays st.memory →
      GoodArrays (execOps ser deser st ops).memory := by
  induction ops with
  | nil => intro st hm; exact hm
  | cons op ops ih =>
    intro st hm
    simp only [execOps, List.foldl_cons]
    exact ih _ (execOp_good ser deser hser st op hm)

/-- C10 amended: from a fresh MemoryDriver, every operation sequence — put,
putMany, forever, forget, flush, increment, decrement and sweep ticks, with
any TagSets — keeps every tag-index array duplicate-free, provided
serialized values are never raw arrays (true of both shipped serializers,
which emit strings): tagged put appends a reference only after a membership
check, forget splices out the located occurrence, and every other mutation
either deletes entries or stores serializer output. -/
theorem mem_tag_index_nodup (ser deser : JVal → JVal)
    (hser : ∀ v, (ser v).isArr = false) (ops : List MemOp) :
    ∀ n l, (execOps ser deser memInit ops).memory.lookup (tagsKey n)
      = some (.arr l) → l.Nodup := by
  intro n l h
  exact execOps_good ser deser hser ops memInit goodArrays_nil (tagsKey n) l h

set_option maxRecDepth 100000 in
/-- Closed instance of the amended C10 theorem: under a string-emitting
serializer, after the concrete sequence put then forget on tag t the tag
index holds the emptied array, which is duplicate-free; the index lookup is
discharged by evaluation and the conclusion by the theorem. -/
theorem mem_tag_index_nodup_witness :
    (execOps (fun _ => JVal.str "s".data) idSer memInit
        [MemOp.put "k".data (.num 1) (some 5) (some ⟨["t".data]⟩),
         MemOp.forget "k".data (some ⟨["t".data]⟩)]).memory.lookup (tagsKey "t".data)
      = some (.arr [])
    ∧ ([] : List JVal).Nodup :=
  ⟨rfl,
    mem_tag_index_nodup (fun _ => JVal.str "s".data) idSer (fun _ => rfl)
      [MemOp.put "k".data (.num 1) (some 5) (some ⟨["t".data]⟩),
       MemOp.forget "k".data (some ⟨["t".data]⟩)] "t".data [] rfl⟩
